import Mathlib

/-!
Verification of the `Set2Set` global pooling operator of
`torch_geometric/nn/glob/set2set.py`.

Modelling conventions:

* Real tensors are nested lists over `ℝ`; `torch.softmax` along the last
  dimension is the mathematical softmax built from `Real.exp`.
* The external recurrent primitive `torch.nn.LSTM` is not part of the
  verified sources; it is modelled as an abstract state-passing function
  `LSTMFn`, a parameter of the model.
* The sequence dimension of length 1 that the code carries around
  (`q_star` has shape `(1, B, 2C)`, the LSTM output has shape
  `(1, B, C)`) is dropped: a batch of query rows is a matrix of shape
  `(B, 2C)`, so the `view` reshapes between `(1, B, 2C)`, `(B, 1, C)`
  and `(B, 2C)` are identities of this representation.
* Python integers are `ℤ` where a negative value is meaningful
  (`processing_steps`, iterated via `range`, hence `Int.toNat`); tensor
  dimensions are `ℕ`.
-/

namespace Set2SetModel

/-- A feature row (1-D tensor). -/
abbrev Vec := List ℝ

/-- A 2-D tensor, e.g. the flat input `x` of shape `(N, C)`. -/
abbrev Mat := List (List ℝ)

/-- A 3-D tensor, e.g. the padded batch of shape `(B, M, C)`. -/
abbrev T3 := List (List (List ℝ))

/-- An all-zero vector, `torch.new_zeros(n)`. -/
def zeros1 (n : ℕ) : Vec := List.replicate n 0

/-- An all-zero matrix, `torch.new_zeros(m, n)`. -/
def zeros2 (m n : ℕ) : Mat := List.replicate m (zeros1 n)

/-- An all-zero 3-D tensor, `torch.new_zeros(l, m, n)`. -/
def zeros3 (l m n : ℕ) : T3 := List.replicate l (zeros2 m n)

/-- The matrix `m` has shape `(r, c)`. -/
def Shape2 (m : Mat) (r c : ℕ) : Prop :=
  m.length = r ∧ ∀ row ∈ m, row.length = c

/-- The 3-D tensor `t` has shape `(a, b, c)`. -/
def Shape3 (t : T3) (a b c : ℕ) : Prop :=
  t.length = a ∧ ∀ m ∈ t, Shape2 m b c

/-- Entry `v[i]` of a vector (0 outside the range). -/
def ent1 (v : Vec) (i : ℕ) : ℝ := v.getD i 0

/-- Entry `m[i, j]` of a matrix. -/
def ent2 (m : Mat) (i j : ℕ) : ℝ := ent1 (m.getD i []) j

/-- Entry `t[i, j, k]` of a 3-D tensor. -/
def ent3 (t : T3) (i j k : ℕ) : ℝ := ent2 (t.getD i []) j k

/-- Modelled from the spec: the number of sets derived by the external
batching primitive `to_batch` (`torch_geometric.utils.to_batch`, not among
the verified sources), `batch.max() + 1` for a nonempty set-id sequence. -/
def numSets (batch : List ℕ) : ℕ :=
  if batch = [] then 0 else batch.foldr max 0 + 1

/-- Modelled from the spec: the elements of set `s`, in input order —
`to_batch` "groups elements by set-id (assumed to preserve or canonicalize
an ordering)". -/
def setElems (x : Mat) (batch : List ℕ) (s : ℕ) : Mat :=
  (x.zip batch).filterMap (fun p => if p.2 = s then some p.1 else none)

/-- Modelled from the spec: "the maximum set size found in the batch". -/
def maxSetSize (x : Mat) (batch : List ℕ) : ℕ :=
  ((List.range (numSets batch)).map
    (fun s => (setElems x batch s).length)).foldr max 0

/-- Modelled from the spec: pad a set's element list to length `M` "with
zero vectors" of feature dimension `C`. -/
def padTo (M C : ℕ) (l : Mat) : Mat :=
  l ++ List.replicate (M - l.length) (zeros1 C)

/-- Modelled from the spec: the batching primitive
`to_batch(elements, set_ids)` groups the `N` element vectors by set-id,
pads each group to the maximum set size with zero vectors, and returns a
dense `(num_sets, max_set_size, C)` tensor.  The second return value of
the original (per-set valid counts) is unused by `Set2Set.forward` and is
omitted.  The feature dimension `C` is passed explicitly (the original
reads it off `x`). -/
def to_batch (C : ℕ) (x : Mat) (batch : List ℕ) : T3 :=
  (List.range (numSets batch)).map
    (fun s => padTo (maxSetSize x batch) C (setElems x batch s))

/-- Dot product of two rows: `(x * q).sum(dim=-1)` at one `(s, j)` cell. -/
def dot (v w : Vec) : ℝ := (List.zipWith (· * ·) v w).sum

/-- Softmax of one row: `torch.softmax(e, dim=-1)` on the last axis. -/
noncomputable def softmax (l : Vec) : Vec :=
  l.map (fun e => Real.exp e / (l.map Real.exp).sum)

/-- Raw attention scores `e = (x * q).sum(dim=-1)`: entry `(s, j)` is the
dot product of padded row `x[s, j]` with query row `q[s]`. -/
def attScores (x3 : T3) (q : Mat) : Mat :=
  List.zipWith (fun qrow xrows => xrows.map (fun row => dot row qrow)) q x3

/-- Attention weights `a = torch.softmax(e, dim=-1)`, per set row. -/
noncomputable def attWeights (e : Mat) : Mat := e.map softmax

/-- Sum of a list of `C`-vectors, the reduction behind
`(a * x).sum(dim=1)`. -/
def vecSum (C : ℕ) (vs : List Vec) : Vec :=
  vs.foldr (fun v acc => List.zipWith (· + ·) v acc) (zeros1 C)

/-- Weighted readout `r = (a * x).sum(dim=1)`: row `s` is
`sum_j a[s, j] • x[s, j]`. -/
noncomputable def readout (C : ℕ) (a : Mat) (x3 : T3) : Mat :=
  List.zipWith
    (fun arow xrows =>
      vecSum C (List.zipWith (fun w row => row.map (fun v => w * v)) arow xrows))
    a x3

/-- `q_star = torch.cat([q, r], dim=-1)`: rowwise concatenation. -/
def newQStar (q r : Mat) : Mat := List.zipWith (· ++ ·) q r

/-- The external LSTM primitive: maps the length-1 input sequence
(a `(B, 2C)` matrix) and a recurrent state to the output sequence
(a `(B, C)` matrix) and the updated state.  The state type is abstract so
the loop can be instrumented. -/
abbrev LSTMFn (σ : Type) := Mat → σ → Mat × σ

/-- The hidden/cell state pair of `torch.nn.LSTM`, each of shape
`(num_layers, B, C)`. -/
abbrev LSTMState := T3 × T3

/-- One iteration of the `for i in range(self.processing_steps)` body:
run the LSTM on `q_star`, score every padded element against the new
query, softmax-normalize, take the weighted readout, and concatenate
query and readout into the next `q_star`. -/
noncomputable def set2setStep {σ : Type} (C : ℕ) (x3 : T3) (lstm : LSTMFn σ)
    (p : Mat × σ) : Mat × σ :=
  let q := (lstm p.1 p.2).1
  (newQStar q (readout C (attWeights (attScores x3 q)) x3), (lstm p.1 p.2).2)

/-- Apply `f` exactly `n` times (the semantics of `for i in range(n)`). -/
def loop {A : Type} (f : A → A) : ℕ → A → A
  | 0, a => a
  | n + 1, a => loop f n (f a)

/-- The iteration of `forward` after batching: start from the all-zero
`q_star` of shape `(B, out_channels)` and the given recurrent state, and
run `set2setStep` once per element of `range(T)` (that is, `T.toNat`
times — Python's `range` is empty for non-positive `T`). -/
noncomputable def forwardAux {σ : Type} (C oc : ℕ) (lstm : LSTMFn σ)
    (x3 : T3) (st0 : σ) (T : ℤ) (B : ℕ) : Mat × σ :=
  loop (set2setStep C x3 lstm) T.toNat (zeros2 B oc, st0)

/-- The `Set2Set` module: the four configuration fields stored by
`__init__` plus the owned LSTM primitive (whose learned weights are
abstracted into the function itself). -/
structure Set2Set where
  in_channels : ℕ
  out_channels : ℕ
  processing_steps : ℤ
  num_layers : ℕ
  lstm : LSTMFn LSTMState

/-- `Set2Set.__init__`: stores `in_channels`, derives
`out_channels = 2 * in_channels`, stores `processing_steps` and
`num_layers`, and owns the LSTM.  The original performs no validation of
any argument. -/
def Set2Set.init (in_channels : ℕ) (processing_steps : ℤ) (num_layers : ℕ)
    (lstm : LSTMFn LSTMState) : Set2Set :=
  { in_channels := in_channels
    out_channels := 2 * in_channels
    processing_steps := processing_steps
    num_layers := num_layers
    lstm := lstm }

/-- `Set2Set.forward(x, batch)`: batch the flat input, zero-initialize the
hidden/cell state of shape `(num_layers, B, C)` and `q_star` of shape
`(B, out_channels)`, iterate, and return the final `q_star` viewed as
`(B, out_channels)`.  The method mutates no field of the module, so the
returned receiver is the module itself. -/
noncomputable def Set2Set.forward (m : Set2Set) (x : Mat) (batch : List ℕ) :
    Mat × Set2Set :=
  let x3 := to_batch m.in_channels x batch
  let B := numSets batch
  let h0 : LSTMState :=
    (zeros3 m.num_layers B m.in_channels, zeros3 m.num_layers B m.in_channels)
  ((forwardAux m.in_channels m.out_channels m.lstm x3 h0 m.processing_steps B).1,
   m)

/-- Instrumentation of the recurrent primitive: behaves like `lstm` and
additionally counts its own invocations in an extra state component. -/
def countingLstm {σ : Type} (lstm : LSTMFn σ) : LSTMFn (σ × ℕ) :=
  fun q p => ((lstm q p.1).1, ((lstm q p.1).2, p.2 + 1))

/-- The number of LSTM invocations a call `forward(x, batch)` performs,
read off the instrumented run. -/
noncomputable def forwardLstmCalls (m : Set2Set) (x : Mat) (batch : List ℕ) :
    ℕ :=
  let x3 := to_batch m.in_channels x batch
  let B := numSets batch
  let h0 : LSTMState :=
    (zeros3 m.num_layers B m.in_channels, zeros3 m.num_layers B m.in_channels)
  (forwardAux m.in_channels m.out_channels (countingLstm m.lstm) x3 (h0, 0)
    m.processing_steps B).2.2

/-- Modelled from the spec: the construction contract of §4.1 — accept
`in_channels > 0`, `processing_steps > 0`, `num_layers ≥ 1` and raise a
configuration error otherwise.  This is the spec's demanded behaviour,
stated for comparison with `Set2Set.init`; the original code has no such
check. -/
def initChecked (in_channels : ℕ) (processing_steps : ℤ) (num_layers : ℕ)
    (lstm : LSTMFn LSTMState) : Option Set2Set :=
  if 0 < in_channels ∧ 0 < processing_steps ∧ 1 ≤ num_layers then
    some (Set2Set.init in_channels processing_steps num_layers lstm)
  else none

/-- Shape contract of `torch.nn.LSTM(input_size = 2C, hidden_size = C,
num_layers = L)` on a batch of size `B`: a well-shaped input and state
yield an output of shape `(B, C)` and a well-shaped state. -/
def LSTMShapeOK (B C L : ℕ) (lstm : LSTMFn LSTMState) : Prop :=
  ∀ q st, Shape2 q B (2 * C) → Shape3 st.1 L B C → Shape3 st.2 L B C →
    Shape2 (lstm q st).1 B C ∧ Shape3 (lstm q st).2.1 L B C ∧
      Shape3 (lstm q st).2.2 L B C

end Set2SetModel

namespace Set2SetModel

/-! ### Basic shape lemmas -/

theorem length_zeros1 (n : ℕ) : (zeros1 n).length = n := by
  simp [zeros1]

theorem shape2_zeros2 (m n : ℕ) : Shape2 (zeros2 m n) m n := by
  constructor
  · simp [zeros2]
  · intro row hrow
    rcases List.eq_of_mem_replicate hrow with rfl
    exact length_zeros1 n

theorem shape3_zeros3 (l m n : ℕ) : Shape3 (zeros3 l m n) l m n := by
  constructor
  · simp [zeros3]
  · intro mm hmm
    rcases List.eq_of_mem_replicate hmm with rfl
    exact shape2_zeros2 m n

theorem mem_zipWith {α β γ : Type} {f : α → β → γ} {l1 : List α}
    {l2 : List β} {c : γ} (h : c ∈ List.zipWith f l1 l2) :
    ∃ a ∈ l1, ∃ b ∈ l2, c = f a b := by
  induction l1 generalizing l2 with
  | nil => simp at h
  | cons a t ih =>
    cases l2 with
    | nil => simp at h
    | cons b t2 =>
      rcases List.mem_cons.mp h with rfl | h
      · exact ⟨a, List.mem_cons_self a t, b, List.mem_cons_self b t2, rfl⟩
      · rcases ih h with ⟨a', ha', b', hb', rfl⟩
        exact ⟨a', List.mem_cons_of_mem _ ha', b', List.mem_cons_of_mem _ hb',
          rfl⟩

theorem le_foldr_max {a : ℕ} {l : List ℕ} (h : a ∈ l) : a ≤ l.foldr max 0 := by
  induction l with
  | nil => simp at h
  | cons b t ih =>
    rcases List.mem_cons.mp h with rfl | h
    · exact le_max_left _ _
    · exact le_trans (ih h) (le_max_right _ _)

theorem length_vecSum {C : ℕ} {vs : List Vec} (h : ∀ v ∈ vs, v.length = C) :
    (vecSum C vs).length = C := by
  induction vs with
  | nil => simpa [vecSum] using length_zeros1 C
  | cons v t ih =>
    have hv : v.length = C := h v (List.mem_cons_self v t)
    have ht : (vecSum C t).length = C :=
      ih fun w hw => h w (List.mem_cons_of_mem _ hw)
    simp [vecSum] at ht ⊢
    simp [ht, hv]

theorem mem_setElems {x : Mat} {batch : List ℕ} {s : ℕ} {row : Vec}
    (h : row ∈ setElems x batch s) : row ∈ x := by
  simp only [setElems, List.mem_filterMap] at h
  rcases h with ⟨p, hp, hif⟩
  have : p.1 = row := by
    by_cases hc : p.2 = s
    · simpa [hc] using hif
    · simp [hc] at hif
  exact this ▸ List.of_mem_zip hp |>.1

theorem length_setElems_le {x : Mat} {batch : List ℕ} {s : ℕ}
    (hs : s < numSets batch) :
    (setElems x batch s).length ≤ maxSetSize x batch := by
  apply le_foldr_max
  exact List.mem_map_of_mem _ (List.mem_range.mpr hs)

theorem length_padTo {M C : ℕ} {l : Mat} (h : l.length ≤ M) :
    (padTo M C l).length = M := by
  simp [padTo]
  omega

theorem mem_padTo {M C : ℕ} {l : Mat} {row : Vec} (h : row ∈ padTo M C l) :
    row ∈ l ∨ row = zeros1 C := by
  rcases List.mem_append.mp h with h | h
  · exact Or.inl h
  · exact Or.inr (List.eq_of_mem_replicate h)

theorem shape_to_batch {C : ℕ} {x : Mat} {batch : List ℕ}
    (hx : ∀ v ∈ x, v.length = C) :
    Shape3 (to_batch C x batch) (numSets batch) (maxSetSize x batch) C := by
  constructor
  · simp [to_batch]
  · intro m hm
    simp only [to_batch, List.mem_map, List.mem_range] at hm
    rcases hm with ⟨s, hs, rfl⟩
    constructor
    · exact length_padTo (length_setElems_le hs)
    · intro row hrow
      rcases mem_padTo hrow with h | h
      · exact hx row (mem_setElems h)
      · simp [h, length_zeros1]

end Set2SetModel

namespace Set2SetModel

/-! ### Shape preservation through the iteration -/

/-- The shapes the loop state keeps: `q_star` is `(B, 2C)` and the
hidden/cell pair is `(L, B, C)` each. -/
def StepInv (B C L : ℕ) (p : Mat × LSTMState) : Prop :=
  Shape2 p.1 B (2 * C) ∧ Shape3 p.2.1 L B C ∧ Shape3 p.2.2 L B C

theorem shape_readout {B M C : ℕ} {a : Mat} {x3 : T3} (ha : a.length = B)
    (hx3 : Shape3 x3 B M C) : Shape2 (readout C a x3) B C := by
  constructor
  · simp [readout, ha, hx3.1]
  · intro row hrow
    rcases mem_zipWith hrow with ⟨arow, _, xrows, hxrows, rfl⟩
    apply length_vecSum
    intro v hv
    rcases mem_zipWith hv with ⟨w, _, r, hr, rfl⟩
    simpa using (hx3.2 xrows hxrows).2 r hr

theorem shape_newQStar {B C : ℕ} {q r : Mat} (hq : Shape2 q B C)
    (hr : Shape2 r B C) : Shape2 (newQStar q r) B (2 * C) := by
  constructor
  · simp [newQStar, hq.1, hr.1]
  · intro row hrow
    rcases mem_zipWith hrow with ⟨qi, hqi, ri, hri, rfl⟩
    simp [hq.2 qi hqi, hr.2 ri hri]
    omega

theorem step_inv {B M C L : ℕ} {x3 : T3} {lstm : LSTMFn LSTMState}
    (hx3 : Shape3 x3 B M C) (hlstm : LSTMShapeOK B C L lstm)
    {p : Mat × LSTMState} (hp : StepInv B C L p) :
    StepInv B C L (set2setStep C x3 lstm p) := by
  obtain ⟨hq, hh, hc⟩ := hp
  obtain ⟨hout, hh', hc'⟩ := hlstm p.1 p.2 hq hh hc
  refine ⟨?_, hh', hc'⟩
  have ha : (attWeights (attScores x3 ((lstm p.1 p.2).1))).length = B := by
    simp [attWeights, attScores, hout.1, hx3.1]
  exact shape_newQStar hout (shape_readout ha hx3)

theorem loop_inv {A : Type} {P : A → Prop} (f : A → A)
    (hf : ∀ a, P a → P (f a)) : ∀ (n : ℕ) (a : A), P a → P (loop f n a) := by
  intro n
  induction n with
  | zero => intro a ha; exact ha
  | succ k ih => intro a ha; exact ih (f a) (hf a ha)

end Set2SetModel

namespace Set2SetModel

/-- C1: for every input batch of feature vectors of dimension
`in_channels` grouped by `to_batch` into `numSets batch` sets, `forward`
returns a tensor of shape `(numSets batch, 2 * in_channels)`, for every
value of `processing_steps` (and whatever `max_set_size` turns out to
be), provided the external LSTM honours its shape contract. -/
theorem forward_output_shape (inC L : ℕ) (T : ℤ) (lstm : LSTMFn LSTMState)
    (x : Mat) (batch : List ℕ)
    (hx : ∀ v ∈ x, v.length = inC)
    (hlstm : LSTMShapeOK (numSets batch) inC L lstm) :
    Shape2 ((Set2Set.init inC T L lstm).forward x batch).1
      (numSets batch) (2 * inC) := by
  have hx3 : Shape3 (to_batch inC x batch) (numSets batch)
      (maxSetSize x batch) inC := shape_to_batch hx
  have h0 : StepInv (numSets batch) inC L
      (zeros2 (numSets batch) (2 * inC),
        (zeros3 L (numSets batch) inC, zeros3 L (numSets batch) inC)) :=
    ⟨shape2_zeros2 _ _, shape3_zeros3 _ _ _, shape3_zeros3 _ _ _⟩
  have hloop := loop_inv _ (fun p hp => step_inv hx3 hlstm hp) T.toNat _ h0
  exact hloop.1

/-- Witness for C1 at a concrete input: one set, one element, `C = 1`,
`T = 2`, and a concrete LSTM satisfying the shape contract. -/
theorem forward_output_shape_witness :
    (∀ v ∈ ([[(1 : ℝ)]] : Mat), v.length = 1) ∧
    LSTMShapeOK (numSets [0]) 1 1 (fun _ st => (zeros2 1 1, st)) ∧
    Shape2 ((Set2Set.init 1 2 1 (fun _ st => (zeros2 1 1, st))).forward
      [[(1 : ℝ)]] [0]).1 (numSets [0]) (2 * 1) := by
  refine ⟨?_, ?_, ?_⟩
  · intro v hv
    simp only [List.mem_singleton] at hv
    simp [hv]
  · intro q st _ h2 h3
    have : numSets [0] = 1 := by simp [numSets]
    rw [this]
    exact ⟨shape2_zeros2 1 1, h2, h3⟩
  · exact forward_output_shape 1 1 2 _ [[(1 : ℝ)]] [0]
      (by intro v hv; simp only [List.mem_singleton] at hv; simp [hv])
      (by intro q st _ h2 h3
          have : numSets [0] = 1 := by simp [numSets]
          rw [this]
          exact ⟨shape2_zeros2 1 1, h2, h3⟩)

end Set2SetModel

namespace Set2SetModel

/-! ### Zero and negative processing steps, frame, determinism -/

/-- C6: with `processing_steps = 0` the loop body never runs and `forward`
returns the initial all-zero `q_star` viewed as
`(numSets batch, 2 * in_channels)` — an all-zero output tensor. -/
theorem forward_zero_steps (inC L : ℕ) (lstm : LSTMFn LSTMState) (x : Mat)
    (batch : List ℕ) :
    ((Set2Set.init inC 0 L lstm).forward x batch).1 =
      zeros2 (numSets batch) (2 * inC) := rfl

/-- C10: for every negative `processing_steps`, `range` is empty, the loop
body never runs, no error is raised, and the output is the all-zero tensor
of shape `(numSets batch, 2 * in_channels)` — identical to the
`processing_steps = 0` case. -/
theorem forward_negative_steps (inC L : ℕ) (T : ℤ) (lstm : LSTMFn LSTMState)
    (x : Mat) (batch : List ℕ) (hT : T < 0) :
    ((Set2Set.init inC T L lstm).forward x batch).1 =
        zeros2 (numSets batch) (2 * inC) ∧
      ((Set2Set.init inC T L lstm).forward x batch).1 =
        ((Set2Set.init inC 0 L lstm).forward x batch).1 := by
  have h0 : T.toNat = 0 := Int.toNat_of_nonpos hT.le
  constructor
  · simp only [Set2Set.forward, forwardAux, Set2Set.init, h0]
    rfl
  · simp only [Set2Set.forward, forwardAux, Set2Set.init, h0]
    rfl

/-- Witness for C10: `processing_steps = -1` on a concrete input. -/
theorem forward_negative_steps_witness :
    (-1 : ℤ) < 0 ∧
      (((Set2Set.init 1 (-1) 1 (fun q st => (q, st))).forward
          [[(1 : ℝ)]] [0]).1 = zeros2 (numSets [0]) (2 * 1) ∧
        ((Set2Set.init 1 (-1) 1 (fun q st => (q, st))).forward
            [[(1 : ℝ)]] [0]).1 =
          ((Set2Set.init 1 0 1 (fun q st => (q, st))).forward
            [[(1 : ℝ)]] [0]).1) :=
  ⟨by decide,
    forward_negative_steps 1 1 (-1) (fun q st => (q, st)) [[(1 : ℝ)]] [0]
      (by decide)⟩

/-- C9: `forward` has no side effect on the module: the receiver comes
back unchanged (all configuration fields and the LSTM are untouched), the
run starts from freshly zero-initialized hidden/cell state and `q_star`
on every call, and a second call on the returned module yields the same
output (no recurrent state persists across calls). -/
theorem forward_frame (m : Set2Set) (x : Mat) (batch : List ℕ) :
    (m.forward x batch).2 = m ∧
      (m.forward x batch).1 =
        (forwardAux m.in_channels m.out_channels m.lstm
          (to_batch m.in_channels x batch)
          (zeros3 m.num_layers (numSets batch) m.in_channels,
            zeros3 m.num_layers (numSets batch) m.in_channels)
          m.processing_steps (numSets batch)).1 ∧
      (((m.forward x batch).2).forward x batch).1 = (m.forward x batch).1 :=
  ⟨rfl, rfl, rfl⟩

/-- C8: `forward` is deterministic — two calls on modules with identical
configuration and identical LSTM weights, on identical inputs, return
identical outputs; no stochastic element participates. -/
theorem forward_deterministic (m₁ m₂ : Set2Set) (x₁ x₂ : Mat)
    (b₁ b₂ : List ℕ)
    (hc : m₁.in_channels = m₂.in_channels)
    (ho : m₁.out_channels = m₂.out_channels)
    (hp : m₁.processing_steps = m₂.processing_steps)
    (hl : m₁.num_layers = m₂.num_layers)
    (hw : m₁.lstm = m₂.lstm)
    (hx : x₁ = x₂) (hb : b₁ = b₂) :
    (m₁.forward x₁ b₁).1 = (m₂.forward x₂ b₂).1 := by
  cases m₁
  cases m₂
  simp only at hc ho hp hl hw
  subst hc ho hp hl hw hx hb
  rfl

/-- Witness for C8: two textually identical calls at a concrete input. -/
theorem forward_deterministic_witness :
    ((Set2Set.init 1 2 1 (fun q st => (q, st))).forward
        [[(1 : ℝ)]] [0]).1 =
      ((Set2Set.init 1 2 1 (fun q st => (q, st))).forward
        [[(1 : ℝ)]] [0]).1 :=
  forward_deterministic _ _ _ _ _ _ rfl rfl rfl rfl rfl rfl rfl

end Set2SetModel

namespace Set2SetModel

/-! ### Construction: what `__init__` actually does -/

/-- Counterexample for C5: the code's constructor accepts
`processing_steps = 0` (a non-positive value) without raising any
configuration error — it simply stores it — whereas the spec-side checked
constructor `initChecked` rejects the same arguments.  So construction
does not validate its configuration. -/
theorem init_no_validation_counterexample :
    (Set2Set.init 3 0 1 (fun q st => (q, st))).processing_steps = 0 ∧
      initChecked 3 0 1 (fun q st => (q, st)) = none := by
  constructor
  · rfl
  · simp [initChecked]

/-- C5 (amended): construction performs no validation — it accepts every
argument combination, derives `out_channels = 2 * in_channels`, stores
`in_channels`, `processing_steps` and `num_layers` unchanged, and none of
these fields ever changes afterwards (`forward` returns the module
untouched). -/
theorem init_stores_config (inC L : ℕ) (T : ℤ) (lstm : LSTMFn LSTMState) :
    (Set2Set.init inC T L lstm).in_channels = inC ∧
      (Set2Set.init inC T L lstm).out_channels = 2 * inC ∧
      (Set2Set.init inC T L lstm).processing_steps = T ∧
      (Set2Set.init inC T L lstm).num_layers = L ∧
      ∀ (x : Mat) (batch : List ℕ),
        ((Set2Set.init inC T L lstm).forward x batch).2 =
          Set2Set.init inC T L lstm :=
  ⟨rfl, rfl, rfl, rfl, fun _ _ => rfl⟩

/-! ### Exact number of recurrent updates -/

theorem loop_counting {σ : Type} (C : ℕ) (x3 : T3) (lstm : LSTMFn σ) :
    ∀ (n : ℕ) (q : Mat) (st : σ) (k : ℕ),
      loop (set2setStep C x3 (countingLstm lstm)) n (q, (st, k)) =
        ((loop (set2setStep C x3 lstm) n (q, st)).1,
          ((loop (set2setStep C x3 lstm) n (q, st)).2, k + n)) := by
  intro n
  induction n with
  | zero => intro q st k; simp [loop]
  | succ m ih =>
    intro q st k
    have hstep :
        set2setStep C x3 (countingLstm lstm) (q, (st, k)) =
          ((set2setStep C x3 lstm (q, st)).1,
            ((set2setStep C x3 lstm (q, st)).2, k + 1)) := rfl
    calc loop (set2setStep C x3 (countingLstm lstm)) (m + 1) (q, (st, k))
        = loop (set2setStep C x3 (countingLstm lstm)) m
            ((set2setStep C x3 lstm (q, st)).1,
              ((set2setStep C x3 lstm (q, st)).2, k + 1)) := by
          rw [loop, hstep]
      _ = _ := by
          rw [ih]
          rw [loop]
          have : k + 1 + m = k + (m + 1) := by omega
          rw [this]

/-- C2: a call with positive `processing_steps = T` invokes the LSTM
exactly `T` times — the loop is a straight-line iteration with no
branching, no early exit and no failure path, as witnessed by the
instrumented run, which also computes exactly the same output as the
uninstrumented one. -/
theorem forward_lstm_call_count (inC L : ℕ) (T : ℤ)
    (lstm : LSTMFn LSTMState) (x : Mat) (batch : List ℕ) (hT : 0 < T) :
    (forwardLstmCalls (Set2Set.init inC T L lstm) x batch : ℤ) = T ∧
      (forwardAux inC (2 * inC) (countingLstm lstm) (to_batch inC x batch)
          ((zeros3 L (numSets batch) inC, zeros3 L (numSets batch) inC), 0)
          T (numSets batch)).1 =
        ((Set2Set.init inC T L lstm).forward x batch).1 := by
  have hc := loop_counting inC (to_batch inC x batch) lstm T.toNat
    (zeros2 (numSets batch) (2 * inC))
    (zeros3 L (numSets batch) inC, zeros3 L (numSets batch) inC) 0
  constructor
  · have : forwardLstmCalls (Set2Set.init inC T L lstm) x batch = T.toNat := by
      simp only [forwardLstmCalls, forwardAux, Set2Set.init, Set2Set.forward]
      rw [hc]
      simp
    rw [this]
    exact Int.toNat_of_nonneg hT.le
  · simp only [forwardAux, Set2Set.forward, Set2Set.init]
    rw [hc]

/-- Witness for C2: `T = 3` on a concrete input and a concrete LSTM. -/
theorem forward_lstm_call_count_witness :
    (0 : ℤ) < 3 ∧
      ((forwardLstmCalls (Set2Set.init 1 3 1 (fun q st => (q, st)))
          [[(1 : ℝ)]] [0] : ℤ) = 3 ∧
        (forwardAux 1 (2 * 1) (countingLstm (fun q st => (q, st)))
            (to_batch 1 [[(1 : ℝ)]] [0])
            ((zeros3 1 (numSets [0]) 1, zeros3 1 (numSets [0]) 1), 0)
            3 (numSets [0])).1 =
          ((Set2Set.init 1 3 1 (fun q st => (q, st))).forward
            [[(1 : ℝ)]] [0]).1) :=
  ⟨by decide,
    forward_lstm_call_count 1 1 3 (fun q st => (q, st)) [[(1 : ℝ)]] [0]
      (by decide)⟩

end Set2SetModel

namespace Set2SetModel

/-! ### Entry-level lemmas for the attention computation -/

theorem list_sum_getD (l : List ℝ) :
    l.sum = ∑ i ∈ Finset.range l.length, l.getD i 0 := by
  induction l with
  | nil => simp
  | cons a t ih =>
    rw [List.sum_cons, ih, List.length_cons, Finset.sum_range_succ']
    simp [add_comm]

theorem getD_eq_getElem' {α : Type} {l : List α} {i : ℕ} (d : α)
    (h : i < l.length) : l.getD i d = l[i] := List.getD_eq_getElem l d h

theorem ent2_eq {m : Mat} {s : ℕ} (hs : s < m.length) (j : ℕ) :
    ent2 m s j = ent1 m[s] j := by
  rw [ent2, getD_eq_getElem' [] hs]

theorem ent3_eq {t : T3} {s : ℕ} (hs : s < t.length) (j k : ℕ) :
    ent3 t s j k = ent2 t[s] j k := by
  rw [ent3, getD_eq_getElem' [] hs]

theorem dot_getD {v w : Vec} {C : ℕ} (hv : v.length = C) (hw : w.length = C) :
    dot v w = ∑ c ∈ Finset.range C, ent1 v c * ent1 w c := by
  have hlen : (List.zipWith (· * ·) v w).length = C := by
    simp [hv, hw]
  rw [dot, list_sum_getD, hlen]
  apply Finset.sum_congr rfl
  intro c hc
  rw [Finset.mem_range] at hc
  have h1 : c < v.length := by omega
  have h2 : c < w.length := by omega
  have h3 : c < (List.zipWith (· * ·) v w).length := by omega
  rw [ent1, ent1, getD_eq_getElem' 0 h3, getD_eq_getElem' 0 h1,
    getD_eq_getElem' 0 h2, List.getElem_zipWith]

theorem getD_map {α β : Type} (f : α → β) {l : List α} {j : ℕ}
    (hj : j < l.length) (d : β) (d' : α) :
    (l.map f).getD j d = f (l.getD j d') := by
  rw [getD_eq_getElem' d (by simpa using hj), List.getElem_map,
    getD_eq_getElem' d' hj]

theorem getD_zipWith {α β γ : Type} (f : α → β → γ) {l1 : List α}
    {l2 : List β} {j : ℕ} (h1 : j < l1.length) (h2 : j < l2.length)
    (d : γ) (d1 : α) (d2 : β) :
    (List.zipWith f l1 l2).getD j d = f (l1.getD j d1) (l2.getD j d2) := by
  have h3 : j < (List.zipWith f l1 l2).length := by
    simp
    omega
  rw [getD_eq_getElem' d h3, List.getElem_zipWith, getD_eq_getElem' d1 h1,
    getD_eq_getElem' d2 h2]

theorem ent1_softmax {l : Vec} {j : ℕ} (hj : j < l.length) :
    ent1 (softmax l) j =
      Real.exp (ent1 l j) /
        ∑ i ∈ Finset.range l.length, Real.exp (ent1 l i) := by
  have hmap : (l.map Real.exp).sum =
      ∑ i ∈ Finset.range l.length, Real.exp (ent1 l i) := by
    rw [list_sum_getD, List.length_map]
    apply Finset.sum_congr rfl
    intro i hi
    rw [Finset.mem_range] at hi
    rw [getD_map Real.exp hi 0 0, ent1]
  rw [ent1, softmax, getD_map _ hj 0 0, hmap, ent1]

theorem attWeights_row {e : Mat} {s : ℕ} (hs : s < e.length) :
    (attWeights e).getD s [] = softmax (e.getD s []) := by
  have hs' : s < (attWeights e).length := by simpa [attWeights] using hs
  rw [getD_eq_getElem' [] hs']
  simp only [attWeights, List.getElem_map]
  rw [getD_eq_getElem' [] hs]

end Set2SetModel

namespace Set2SetModel

theorem ent2_attScores {B M C : ℕ} {x3 : T3} {q : Mat} (hx3 : Shape3 x3 B M C)
    (hq : Shape2 q B C) {s j : ℕ} (hs : s < B) (hj : j < M) :
    ent2 (attScores x3 q) s j =
      ∑ c ∈ Finset.range C, ent3 x3 s j c * ent2 q s c := by
  have hsq : s < q.length := by rw [hq.1]; exact hs
  have hsx : s < x3.length := by rw [hx3.1]; exact hs
  have hxrow : Shape2 (x3.getD s []) M C := by
    rw [getD_eq_getElem' [] hsx]
    exact hx3.2 _ (List.getElem_mem hsx)
  have hj' : j < (x3.getD s []).length := by rw [hxrow.1]; exact hj
  have hrowlen : ((x3.getD s []).getD j []).length = C := by
    rw [getD_eq_getElem' [] hj']
    exact hxrow.2 _ (List.getElem_mem hj')
  have hqlen : (q.getD s []).length = C := by
    rw [getD_eq_getElem' [] hsq]
    exact hq.2 _ (List.getElem_mem hsq)
  simp only [ent2, ent1, attScores]
  rw [getD_zipWith (fun qrow xrows => xrows.map fun row => dot row qrow)
    hsq hsx [] [] []]
  rw [getD_map (fun row => dot row (q.getD s [])) hj' 0 [],
    dot_getD hrowlen hqlen]
  simp only [ent3, ent2, ent1]

theorem ent1_vecSum {C c : ℕ} (hc : c < C) :
    ∀ (vs : List Vec), (∀ v ∈ vs, v.length = C) →
      ent1 (vecSum C vs) c = (vs.map (fun v => ent1 v c)).sum := by
  intro vs
  induction vs with
  | nil =>
    intro _
    simp only [vecSum, List.foldr_nil, List.map_nil, List.sum_nil, ent1,
      zeros1]
    rw [getD_eq_getElem' 0 (by simpa using hc)]
    simp
  | cons v t ih =>
    intro h
    have hv : v.length = C := h v (List.mem_cons_self v t)
    have ht : ∀ w ∈ t, w.length = C :=
      fun w hw => h w (List.mem_cons_of_mem v hw)
    have hlt : (vecSum C t).length = C := length_vecSum ht
    have hstep : vecSum C (v :: t) = List.zipWith (· + ·) v (vecSum C t) :=
      rfl
    rw [hstep, ent1, getD_zipWith (· + ·) (by omega) (by omega) 0 0 0,
      List.map_cons, List.sum_cons, ← ih ht]
    simp only [ent1]

theorem ent2_readout {B M C : ℕ} {a : Mat} {x3 : T3} (ha : Shape2 a B M)
    (hx3 : Shape3 x3 B M C) {s c : ℕ} (hs : s < B) (hc : c < C) :
    ent2 (readout C a x3) s c =
      ∑ j ∈ Finset.range M, ent2 a s j * ent3 x3 s j c := by
  have hsa : s < a.length := by rw [ha.1]; exact hs
  have hsx : s < x3.length := by rw [hx3.1]; exact hs
  have harow : (a.getD s []).length = M := by
    rw [getD_eq_getElem' [] hsa]
    exact ha.2 _ (List.getElem_mem hsa)
  have hxrow : Shape2 (x3.getD s []) M C := by
    rw [getD_eq_getElem' [] hsx]
    exact hx3.2 _ (List.getElem_mem hsx)
  simp only [ent2, readout]
  rw [getD_zipWith
    (fun arow xrows =>
      vecSum C (List.zipWith (fun w row => row.map (fun v => w * v)) arow
        xrows))
    hsa hsx [] [] []]
  have hmem : ∀ v ∈ List.zipWith (fun w row => row.map (fun u => w * u))
      (a.getD s []) (x3.getD s []), v.length = C := by
    intro v hv
    rcases mem_zipWith hv with ⟨w, _, r, hr, rfl⟩
    simpa using hxrow.2 r hr
  rw [ent1_vecSum hc _ hmem, list_sum_getD]
  have hlen : ((List.zipWith (fun w row => row.map (fun u => w * u))
      (a.getD s []) (x3.getD s [])).map (fun v => ent1 v c)).length = M := by
    rw [List.length_map, List.length_zipWith, harow, hxrow.1, min_self]
  rw [hlen]
  apply Finset.sum_congr rfl
  intro j hj
  rw [Finset.mem_range] at hj
  have hj1 : j < (a.getD s []).length := by rw [harow]; exact hj
  have hj2 : j < (x3.getD s []).length := by rw [hxrow.1]; exact hj
  have hjz : j < (List.zipWith (fun w row => row.map (fun u => w * u))
      (a.getD s []) (x3.getD s [])).length := by
    rw [List.length_zipWith, harow, hxrow.1, min_self]
    exact hj
  rw [getD_map (fun v => ent1 v c) hjz 0 []]
  rw [getD_zipWith (fun w row => row.map (fun u => w * u)) hj1 hj2 [] 0 []]
  have hxr : ((x3.getD s []).getD j []).length = C := by
    rw [getD_eq_getElem' [] hj2]
    exact hxrow.2 _ (List.getElem_mem hj2)
  rw [ent1, getD_map (fun u => (a.getD s []).getD j 0 * u)
    (by rw [hxr]; exact hc) 0 0]
  simp only [ent2, ent3, ent1]

theorem newQStar_row {q r : Mat} {s : ℕ} (h1 : s < q.length)
    (h2 : s < r.length) :
    (newQStar q r).getD s [] = q.getD s [] ++ r.getD s [] := by
  simp only [newQStar]
  rw [getD_zipWith (· ++ ·) h1 h2 [] [] []]

end Set2SetModel

namespace Set2SetModel

/-- C3: in every iteration of `forward` (conjunct 5 identifies the loop
body), the raw score of element `j` of set `s` is the dot product
`e[s, j] = sum_c x[s, j, c] * q[s, c]` over the padded tensor, the
attention weights are the row-wise softmax of these scores (normalized
within each set independently), the readout is
`r[s, c] = sum_j a[s, j] * x[s, j, c]`, and the next `q_star` row is the
concatenation of the query row and the readout row (the `(1, B, 2C)`
reshape being the identity of this representation). -/
theorem step_attention_equations (B M C : ℕ) (x3 : T3) (q : Mat)
    (hx3 : Shape3 x3 B M C) (hq : Shape2 q B C) :
    (∀ s < B, ∀ j < M,
      ent2 (attScores x3 q) s j =
        ∑ c ∈ Finset.range C, ent3 x3 s j c * ent2 q s c) ∧
    (∀ s < B, ∀ j < M,
      ent2 (attWeights (attScores x3 q)) s j =
        Real.exp (ent2 (attScores x3 q) s j) /
          ∑ i ∈ Finset.range M, Real.exp (ent2 (attScores x3 q) s i)) ∧
    (∀ s < B, ∀ c < C,
      ent2 (readout C (attWeights (attScores x3 q)) x3) s c =
        ∑ j ∈ Finset.range M,
          ent2 (attWeights (attScores x3 q)) s j * ent3 x3 s j c) ∧
    (∀ s < B,
      (newQStar q (readout C (attWeights (attScores x3 q)) x3)).getD s [] =
        q.getD s [] ++
          (readout C (attWeights (attScores x3 q)) x3).getD s []) ∧
    (∀ (σ : Type) (lstm : LSTMFn σ) (p : Mat × σ),
      set2setStep C x3 lstm p =
        (newQStar ((lstm p.1 p.2).1)
          (readout C (attWeights (attScores x3 ((lstm p.1 p.2).1))) x3),
          (lstm p.1 p.2).2)) := by
  have hashape : Shape2 (attWeights (attScores x3 q)) B M := by
    constructor
    · simp [attWeights, attScores, hq.1, hx3.1]
    · intro row hrow
      simp only [attWeights, List.mem_map] at hrow
      rcases hrow with ⟨erow, herow, rfl⟩
      rcases mem_zipWith herow with ⟨qrow, _, xrows, hxrows, rfl⟩
      simp [softmax, (hx3.2 xrows hxrows).1]
  refine ⟨?_, ?_, ?_, ?_, ?_⟩
  · intro s hs j hj
    exact ent2_attScores hx3 hq hs hj
  · intro s hs j hj
    have hsq : s < q.length := by rw [hq.1]; exact hs
    have hsx : s < x3.length := by rw [hx3.1]; exact hs
    have hxrow : Shape2 (x3.getD s []) M C := by
      rw [getD_eq_getElem' [] hsx]
      exact hx3.2 _ (List.getElem_mem hsx)
    have hse : s < (attScores x3 q).length := by
      rw [attScores, List.length_zipWith, hq.1, hx3.1, min_self]
      exact hs
    have heR : (attScores x3 q).getD s [] =
        (x3.getD s []).map (fun row => dot row (q.getD s [])) := by
      simp only [attScores]
      rw [getD_zipWith (fun qrow xrows => xrows.map fun row => dot row qrow)
        hsq hsx [] [] []]
    have helen : ((attScores x3 q).getD s []).length = M := by
      rw [heR, List.length_map, hxrow.1]
    have hj' : j < ((attScores x3 q).getD s []).length := by
      rw [helen]; exact hj
    rw [ent2, attWeights_row hse, ent1_softmax hj', helen]
    rfl
  · intro s hs c hc
    exact ent2_readout hashape hx3 hs hc
  · intro s hs
    apply newQStar_row
    · rw [hq.1]; exact hs
    · rw [readout, List.length_zipWith, hashape.1, hx3.1, min_self]
      exact hs
  · intro σ lstm p
    rfl

/-- Witness for C3 at a concrete `(1, 1, 1)` tensor and query. -/
theorem step_attention_equations_witness :
    Shape3 [[[(2 : ℝ)]]] 1 1 1 ∧ Shape2 [[(3 : ℝ)]] 1 1 ∧
    ((∀ s < 1, ∀ j < 1,
      ent2 (attScores [[[(2 : ℝ)]]] [[(3 : ℝ)]]) s j =
        ∑ c ∈ Finset.range 1,
          ent3 [[[(2 : ℝ)]]] s j c * ent2 [[(3 : ℝ)]] s c) ∧
    (∀ s < 1, ∀ j < 1,
      ent2 (attWeights (attScores [[[(2 : ℝ)]]] [[(3 : ℝ)]])) s j =
        Real.exp (ent2 (attScores [[[(2 : ℝ)]]] [[(3 : ℝ)]]) s j) /
          ∑ i ∈ Finset.range 1,
            Real.exp (ent2 (attScores [[[(2 : ℝ)]]] [[(3 : ℝ)]]) s i)) ∧
    (∀ s < 1, ∀ c < 1,
      ent2 (readout 1 (attWeights (attScores [[[(2 : ℝ)]]] [[(3 : ℝ)]]))
          [[[(2 : ℝ)]]]) s c =
        ∑ j ∈ Finset.range 1,
          ent2 (attWeights (attScores [[[(2 : ℝ)]]] [[(3 : ℝ)]])) s j *
            ent3 [[[(2 : ℝ)]]] s j c) ∧
    (∀ s < 1,
      (newQStar [[(3 : ℝ)]]
          (readout 1 (attWeights (attScores [[[(2 : ℝ)]]] [[(3 : ℝ)]]))
            [[[(2 : ℝ)]]])).getD s [] =
        ([[(3 : ℝ)]] : Mat).getD s [] ++
          (readout 1 (attWeights (attScores [[[(2 : ℝ)]]] [[(3 : ℝ)]]))
            [[[(2 : ℝ)]]]).getD s []) ∧
    (∀ (σ : Type) (lstm : LSTMFn σ) (p : Mat × σ),
      set2setStep 1 [[[(2 : ℝ)]]] lstm p =
        (newQStar ((lstm p.1 p.2).1)
          (readout 1
            (attWeights (attScores [[[(2 : ℝ)]]] ((lstm p.1 p.2).1)))
            [[[(2 : ℝ)]]]),
          (lstm p.1 p.2).2))) := by
  have h1 : Shape3 [[[(2 : ℝ)]]] 1 1 1 := by
    refine ⟨rfl, ?_⟩
    intro m hm
    simp only [List.mem_singleton] at hm
    subst hm
    refine ⟨rfl, ?_⟩
    intro row hrow
    simp only [List.mem_singleton] at hrow
    simp [hrow]
  have h2 : Shape2 [[(3 : ℝ)]] 1 1 := by
    refine ⟨rfl, ?_⟩
    intro row hrow
    simp only [List.mem_singleton] at hrow
    simp [hrow]
  exact ⟨h1, h2, step_attention_equations 1 1 1 [[[(2 : ℝ)]]] [[(3 : ℝ)]] h1 h2⟩

end Set2SetModel

namespace Set2SetModel

/-! ### Padding positions in the softmax -/

theorem dot_zeros (C : ℕ) (w : Vec) : dot (zeros1 C) w = 0 := by
  apply List.sum_eq_zero
  intro a ha
  rcases mem_zipWith ha with ⟨u, hu, v, _, rfl⟩
  rcases List.eq_of_mem_replicate hu with rfl
  exact zero_mul v

theorem getD_replicate_self {α : Type} (n i : ℕ) (a : α) :
    (List.replicate n a).getD i a = a := by
  rcases lt_or_ge i n with h | h
  · rw [List.getD_eq_getElem _ _ (by simpa using h), List.getElem_replicate]
  · rw [List.getD_eq_default _ _ (by simpa using h)]

theorem to_batch_row {C : ℕ} {x : Mat} {batch : List ℕ} {s : ℕ}
    (hs : s < numSets batch) :
    (to_batch C x batch).getD s [] =
      padTo (maxSetSize x batch) C (setElems x batch s) := by
  rw [to_batch,
    getD_map (fun t => padTo (maxSetSize x batch) C (setElems x batch t))
      (by simpa using hs) [] 0]
  congr 1
  rw [getD_eq_getElem' 0 (by simpa using hs), List.getElem_range]

theorem softmax_sum_one {l : Vec} (h : l ≠ []) : (softmax l).sum = 1 := by
  have hpos : 0 < (l.map Real.exp).sum := by
    apply List.sum_pos
    · intro a ha
      rcases List.mem_map.mp ha with ⟨b, _, rfl⟩
      exact Real.exp_pos b
    · simpa using h
  have hne : (l.map Real.exp).sum ≠ 0 := ne_of_gt hpos
  have : (softmax l).sum =
      ((l.map Real.exp).map (fun a => a * ((l.map Real.exp).sum)⁻¹)).sum := by
    simp only [softmax, div_eq_mul_inv, List.map_map, Function.comp_def]
  rw [this, List.sum_map_mul_right, List.map_id']
  exact mul_inv_cancel₀ hne

/-- The raw-score row of set `s`: real elements first, then one zero score
per padding position. -/
theorem attScores_row_decomp {C : ℕ} {x : Mat} {batch : List ℕ} {q : Mat}
    {s : ℕ} (hs : s < numSets batch) (hq : q.length = numSets batch) :
    (attScores (to_batch C x batch) q).getD s [] =
      (setElems x batch s).map (fun row => dot row (q.getD s [])) ++
        List.replicate (maxSetSize x batch - (setElems x batch s).length)
          0 := by
  have hsq : s < q.length := by rw [hq]; exact hs
  have hsx : s < (to_batch C x batch).length := by
    simpa [to_batch] using hs
  rw [attScores,
    getD_zipWith (fun qrow xrows => xrows.map fun row => dot row qrow)
      hsq hsx [] [] []]
  rw [to_batch_row hs, padTo, List.map_append, List.map_replicate, dot_zeros]

/-- C4: no mask is applied to padding.  For a set `s` shorter than
`max_set_size`: every padding position receives raw score 0 and hence
contributes `exp 0 = 1` to that set's softmax denominator, the
denominator splits into the real-element part plus one unit per padding
position, and the attention weights over all `max_set_size` positions
(real and padding alike) still sum to 1. -/
theorem softmax_unmasked_padding (C : ℕ) (x : Mat) (batch : List ℕ)
    (q : Mat) (s : ℕ) (e : Vec)
    (hs : s < numSets batch)
    (hq : q.length = numSets batch)
    (hk : (setElems x batch s).length < maxSetSize x batch)
    (he : e = (attScores (to_batch C x batch) q).getD s []) :
    (∀ j, (setElems x batch s).length ≤ j → j < maxSetSize x batch →
      ent1 e j = 0) ∧
    (∀ j, (setElems x batch s).length ≤ j → j < maxSetSize x batch →
      Real.exp (ent1 e j) = 1) ∧
    (e.map Real.exp).sum =
      ((e.take (setElems x batch s).length).map Real.exp).sum +
        ((maxSetSize x batch - (setElems x batch s).length : ℕ) : ℝ) ∧
    (softmax e).sum = 1 := by
  have heq : e =
      (setElems x batch s).map (fun row => dot row (q.getD s [])) ++
        List.replicate (maxSetSize x batch - (setElems x batch s).length)
          0 := by
    rw [he, attScores_row_decomp hs hq]
  have hmaplen :
      ((setElems x batch s).map
        (fun row => dot row (q.getD s []))).length =
        (setElems x batch s).length := List.length_map _ _
  have hzero : ∀ j, (setElems x batch s).length ≤ j →
      j < maxSetSize x batch → ent1 e j = 0 := by
    intro j hj1 hj2
    rw [ent1, heq, List.getD_append_right _ _ 0 j (by rw [hmaplen]; exact hj1)]
    rw [hmaplen]
    exact getD_replicate_self _ _ 0
  refine ⟨hzero, ?_, ?_, ?_⟩
  · intro j hj1 hj2
    rw [hzero j hj1 hj2]
    exact Real.exp_zero
  · rw [heq, List.map_append, List.sum_append]
    congr 1
    · congr 1
      rw [← hmaplen, List.take_left]
    · rw [List.map_replicate, Real.exp_zero, List.sum_replicate, nsmul_eq_mul,
        mul_one]
  · apply softmax_sum_one
    apply List.ne_nil_of_length_pos
    rw [heq, List.length_append, hmaplen, List.length_replicate]
    omega

end Set2SetModel

namespace Set2SetModel

/-- Witness for C4: two sets of sizes 2 and 1, so set 1 is padded; its
attention weights still sum to 1. -/
theorem softmax_unmasked_padding_witness :
    1 < numSets [0, 0, 1] ∧
    ([[(5 : ℝ)], [(7 : ℝ)]] : Mat).length = numSets [0, 0, 1] ∧
    (setElems [[(1 : ℝ)], [(2 : ℝ)], [(3 : ℝ)]] [0, 0, 1] 1).length <
      maxSetSize [[(1 : ℝ)], [(2 : ℝ)], [(3 : ℝ)]] [0, 0, 1] ∧
    (softmax ((attScores
        (to_batch 1 [[(1 : ℝ)], [(2 : ℝ)], [(3 : ℝ)]] [0, 0, 1])
        [[(5 : ℝ)], [(7 : ℝ)]]).getD 1 [])).sum = 1 :=
  ⟨by decide, by decide, by decide,
    (softmax_unmasked_padding 1 [[(1 : ℝ)], [(2 : ℝ)], [(3 : ℝ)]] [0, 0, 1]
      [[(5 : ℝ)], [(7 : ℝ)]] 1 _ (by decide) (by decide) (by decide)
      rfl).2.2.2⟩

end Set2SetModel

namespace Set2SetModel

/-! ### Permutation invariance within a set -/

theorem perm_foldr_max {l1 l2 : List ℕ} (h : l1.Perm l2) (b : ℕ) :
    l1.foldr max b = l2.foldr max b := by
  induction h with
  | nil => rfl
  | cons a h ih => simp [ih]
  | swap a b' t => simp [max_left_comm]
  | trans h1 h2 ih1 ih2 => rw [ih1, ih2]

theorem zipWith_map_left {α β γ : Type} (f : β → α → γ) (g : α → β)
    (l : List α) :
    List.zipWith f (l.map g) l = l.map (fun a => f (g a) a) := by
  induction l with
  | nil => rfl
  | cons a t ih => simp [ih]

theorem softmax_map {α : Type} (g : α → ℝ) (l : List α) :
    softmax (l.map g) =
      l.map (fun a => Real.exp (g a) / ((l.map g).map Real.exp).sum) := by
  simp only [softmax, List.map_map, Function.comp_def]

theorem vecSum_perm {C : ℕ} {vs vs' : List Vec} (hp : vs'.Perm vs)
    (h : ∀ v ∈ vs, v.length = C) : vecSum C vs' = vecSum C vs := by
  have h' : ∀ v ∈ vs', v.length = C := fun v hv => h v (hp.mem_iff.mp hv)
  apply List.ext_getElem
  · rw [length_vecSum h', length_vecSum h]
  · intro i h1 h2
    have hi : i < C := by rw [length_vecSum h'] at h1; exact h1
    have e1 := ent1_vecSum hi vs' h'
    have e2 := ent1_vecSum hi vs h
    rw [ent1, getD_eq_getElem' 0 h1] at e1
    rw [ent1, getD_eq_getElem' 0 h2] at e2
    rw [e1, e2]
    exact (hp.map (fun v => ent1 v i)).sum_eq

/-- The attention-weighted summand list of one set is invariant (as a
`vecSum`) under permuting the set's padded rows: both the softmax
denominator and the weighted sum are permutation-invariant. -/
theorem readout_att_row_perm {C : ℕ} {l l' : List Vec} (w : Vec)
    (hp : l'.Perm l) (hl : ∀ row ∈ l, row.length = C) :
    vecSum C (List.zipWith (fun a row => row.map (fun v => a * v))
        (softmax (l'.map (fun row => dot row w))) l') =
      vecSum C (List.zipWith (fun a row => row.map (fun v => a * v))
        (softmax (l.map (fun row => dot row w))) l) := by
  have hD : ((l'.map (fun row => dot row w)).map Real.exp).sum =
      ((l.map (fun row => dot row w)).map Real.exp).sum :=
    ((hp.map _).map _).sum_eq
  rw [softmax_map, softmax_map, zipWith_map_left, zipWith_map_left, hD]
  apply vecSum_perm (hp.map _)
  intro v hv
  rcases List.mem_map.mp hv with ⟨row, hrow, rfl⟩
  simpa using hl row hrow

theorem attScores_row {x3 : T3} {q : Mat} {s : ℕ} (h1 : s < q.length)
    (h2 : s < x3.length) :
    (attScores x3 q).getD s [] =
      (x3.getD s []).map (fun row => dot row (q.getD s [])) := by
  simp only [attScores]
  rw [getD_zipWith (fun qrow xrows => xrows.map fun row => dot row qrow)
    h1 h2 [] [] []]

theorem readout_row {C : ℕ} {a : Mat} {x3 : T3} {s : ℕ} (h1 : s < a.length)
    (h2 : s < x3.length) :
    (readout C a x3).getD s [] =
      vecSum C (List.zipWith (fun w row => row.map (fun v => w * v))
        (a.getD s []) (x3.getD s [])) := by
  simp only [readout]
  rw [getD_zipWith
    (fun arow xrows =>
      vecSum C (List.zipWith (fun w row => row.map (fun v => w * v)) arow
        xrows))
    h1 h2 [] [] []]

end Set2SetModel

namespace Set2SetModel

/-- One loop iteration is unchanged when every set's padded row list is
permuted: the scores row is permuted accordingly, the softmax denominator
is permutation-invariant, and the weighted readout is a
permutation-invariant sum. -/
theorem set2setStep_perm {σ : Type} {C : ℕ} {x3 x3' : T3} (lstm : LSTMFn σ)
    (hlen : x3'.length = x3.length)
    (hrows : ∀ t, (x3'.getD t []).Perm (x3.getD t []))
    (hshape : ∀ rows ∈ x3, ∀ row ∈ rows, row.length = C) :
    set2setStep C x3' lstm = set2setStep C x3 lstm := by
  funext p
  simp only [set2setStep]
  congr 1
  set q : Mat := (lstm p.1 p.2).1 with hqdef
  have hlen1 : (newQStar q
      (readout C (attWeights (attScores x3' q)) x3')).length =
      min q.length x3'.length := by
    simp only [newQStar, readout, attWeights, attScores,
      List.length_zipWith, List.length_map]
    omega
  have hlen2 : (newQStar q
      (readout C (attWeights (attScores x3 q)) x3)).length =
      min q.length x3.length := by
    simp only [newQStar, readout, attWeights, attScores,
      List.length_zipWith, List.length_map]
    omega
  apply List.ext_getElem
  · rw [hlen1, hlen2, hlen]
  · intro s h1 h2
    have hs1 : s < min q.length x3'.length := by rw [← hlen1]; exact h1
    have hq : s < q.length := by omega
    have hx3' : s < x3'.length := by omega
    have hx3 : s < x3.length := by omega
    have hr' : s < (readout C (attWeights (attScores x3' q)) x3').length := by
      simp only [readout, attWeights, attScores, List.length_zipWith,
        List.length_map]
      omega
    have hr : s < (readout C (attWeights (attScores x3 q)) x3).length := by
      simp only [readout, attWeights, attScores, List.length_zipWith,
        List.length_map]
      omega
    have ha' : s < (attWeights (attScores x3' q)).length := by
      simp only [attWeights, attScores, List.length_zipWith,
        List.length_map]
      omega
    have ha : s < (attWeights (attScores x3 q)).length := by
      simp only [attWeights, attScores, List.length_zipWith,
        List.length_map]
      omega
    have he' : s < (attScores x3' q).length := by
      simp only [attScores, List.length_zipWith]
      omega
    have he : s < (attScores x3 q).length := by
      simp only [attScores, List.length_zipWith]
      omega
    rw [← getD_eq_getElem' [] h1, ← getD_eq_getElem' [] h2]
    rw [newQStar_row hq hr', newQStar_row hq hr]
    congr 1
    rw [readout_row ha' hx3', readout_row ha hx3]
    rw [attWeights_row he', attWeights_row he]
    rw [attScores_row hq hx3', attScores_row hq hx3]
    apply readout_att_row_perm (q.getD s []) (hrows s)
    intro row hrow
    rw [getD_eq_getElem' [] hx3] at hrow
    exact hshape _ (List.getElem_mem hx3) row hrow

end Set2SetModel

namespace Set2SetModel

/-- C7: permuting the element order within one set `s` — its feature
rows and their shared set-id reordered together, every other set's
element list unchanged — leaves the output row of set `s` unchanged (in
exact real arithmetic; the code is subject only to floating-point
summation-order tolerance). -/
theorem forward_within_set_perm (inC L : ℕ) (T : ℤ)
    (lstm : LSTMFn LSTMState) (x x' : Mat) (batch batch' : List ℕ) (s : ℕ)
    (hx : ∀ v ∈ x, v.length = inC)
    (hperm : batch'.Perm batch)
    (hsame : ∀ t, t ≠ s → setElems x' batch' t = setElems x batch t)
    (hps : (setElems x' batch' s).Perm (setElems x batch s)) :
    ((Set2Set.init inC T L lstm).forward x' batch').1.getD s [] =
      ((Set2Set.init inC T L lstm).forward x batch).1.getD s [] := by
  have hnil : (batch' = []) ↔ (batch = []) := by
    constructor
    · intro hh
      subst hh
      exact hperm.symm.eq_nil ▸ rfl
    · intro hh
      subst hh
      exact hperm.eq_nil ▸ rfl
  have hB : numSets batch' = numSets batch := by
    by_cases hb : batch = []
    · simp [numSets, hb, hnil.mpr hb]
    · have hb' : ¬batch' = [] := fun hh => hb (hnil.mp hh)
      simp only [numSets, if_neg hb, if_neg hb']
      rw [perm_foldr_max hperm]
  have hM : maxSetSize x' batch' = maxSetSize x batch := by
    simp only [maxSetSize, hB]
    congr 1
    apply List.map_congr_left
    intro t _
    by_cases hts : t = s
    · subst hts
      exact hps.length_eq
    · rw [hsame t hts]
  have hlen : (to_batch inC x' batch').length =
      (to_batch inC x batch).length := by
    simp [to_batch, hB]
  have hrows : ∀ t, ((to_batch inC x' batch').getD t []).Perm
      ((to_batch inC x batch).getD t []) := by
    intro t
    by_cases ht : t < numSets batch
    · rw [to_batch_row ht,
        @to_batch_row inC x' batch' t (by rw [hB]; exact ht), hM]
      by_cases hts : t = s
      · subst hts
        simp only [padTo]
        rw [hps.length_eq]
        exact hps.append (List.Perm.refl _)
      · rw [hsame t hts]
    · rw [List.getD_eq_default _ _ (by simp only [to_batch,
        List.length_map, List.length_range]; omega),
        List.getD_eq_default _ _ (by simp only [to_batch,
          List.length_map, List.length_range, hB]; omega)]
  have hshape : ∀ rows ∈ to_batch inC x batch, ∀ row ∈ rows,
      row.length = inC :=
    fun rows hr row hrow => ((shape_to_batch hx).2 rows hr).2 row hrow
  have hstep : set2setStep inC (to_batch inC x' batch')
      lstm = set2setStep inC (to_batch inC x batch) lstm :=
    set2setStep_perm lstm hlen hrows hshape
  have : ((Set2Set.init inC T L lstm).forward x' batch').1 =
      ((Set2Set.init inC T L lstm).forward x batch).1 := by
    simp only [Set2Set.forward, Set2Set.init, forwardAux]
    rw [hB, hstep]
  rw [this]

/-- Witness for C7: one set `{[1], [2]}` listed in the two possible
orders; the output row of set 0 coincides. -/
theorem forward_within_set_perm_witness :
    (∀ v ∈ ([[(1 : ℝ)], [(2 : ℝ)]] : Mat), v.length = 1) ∧
    ([0, 0] : List ℕ).Perm [0, 0] ∧
    (∀ t, t ≠ 0 →
      setElems [[(2 : ℝ)], [(1 : ℝ)]] [0, 0] t =
        setElems [[(1 : ℝ)], [(2 : ℝ)]] [0, 0] t) ∧
    (setElems [[(2 : ℝ)], [(1 : ℝ)]] [0, 0] 0).Perm
      (setElems [[(1 : ℝ)], [(2 : ℝ)]] [0, 0] 0) ∧
    ((Set2Set.init 1 2 1 (fun q st => (q, st))).forward
        [[(2 : ℝ)], [(1 : ℝ)]] [0, 0]).1.getD 0 [] =
      ((Set2Set.init 1 2 1 (fun q st => (q, st))).forward
        [[(1 : ℝ)], [(2 : ℝ)]] [0, 0]).1.getD 0 [] := by
  have h1 : ∀ v ∈ ([[(1 : ℝ)], [(2 : ℝ)]] : Mat), v.length = 1 := by
    intro v hv
    rcases List.mem_cons.mp hv with rfl | hv
    · rfl
    · rcases List.mem_cons.mp hv with rfl | hv
      · rfl
      · simp at hv
  have h3 : ∀ t, t ≠ 0 →
      setElems [[(2 : ℝ)], [(1 : ℝ)]] [0, 0] t =
        setElems [[(1 : ℝ)], [(2 : ℝ)]] [0, 0] t := by
    intro t ht
    have hne : ¬((0 : ℕ) = t) := fun hh => ht hh.symm
    simp [setElems, hne]
  have h4 : (setElems [[(2 : ℝ)], [(1 : ℝ)]] [0, 0] 0).Perm
      (setElems [[(1 : ℝ)], [(2 : ℝ)]] [0, 0] 0) :=
    List.Perm.swap [(1 : ℝ)] [(2 : ℝ)] []
  exact ⟨h1, List.Perm.refl _, h3, h4,
    forward_within_set_perm 1 1 2 (fun q st => (q, st))
      [[(1 : ℝ)], [(2 : ℝ)]] [[(2 : ℝ)], [(1 : ℝ)]] [0, 0] [0, 0] 0
      h1 (List.Perm.refl _) h3 h4⟩

end Set2SetModel
